import Mathlib

/-!
Verification of the smart-rent data pipeline (the SUUMO scraper in
`ml/suumo_scraper.py` and the normalizer in `ml/data_preprocessor.py`)
against its natural-language specification.

Strings are modelled as `List Char` (`String.data`); Python floats are
modelled as `ℚ` (every value produced by the pipeline is a finite decimal);
`Option` models a missing value (`NaN` / `None`) or a raising conversion
(`float(...)`/`astype` failure).  Python's `re` digit class `\d` is modelled
by `Char.isDigit` and `\s` by `Char.isWhitespace`; both are faithful on the
pipeline's ASCII-digit inputs.
-/

namespace SmartRent

/-- Numeric value of a list of decimal digit characters, as read left to
right (the value of a regex group matched by a digit-run pattern). -/
def digitsVal (l : List Char) : Nat :=
  l.foldl (fun a c => a * 10 + (c.toNat - 48)) 0

/-- `startsWithSeq pat l` holds when `pat` occurs at the head of `l`. -/
def startsWithSeq : List Char → List Char → Bool
  | [], _ => true
  | _ :: _, [] => false
  | a :: s, b :: t => a = b && startsWithSeq s t

/-- `containsSeq pat l`: `pat` occurs contiguously somewhere inside `l`
(Python's `pat in s` substring test). -/
def containsSeq (pat : List Char) : List Char → Bool
  | [] => pat.isEmpty
  | c :: t => startsWithSeq pat (c :: t) || containsSeq pat t

/-- Fuelled worker for `replaceAll` (Python `str.replace`): replaces every
non-overlapping occurrence of `pat`, scanning left to right.  The fuel is
always instantiated with the length of the scanned list, which suffices
because each step consumes at least one character. -/
def replaceAllF (pat rep : List Char) : Nat → List Char → List Char
  | 0, l => l
  | _ + 1, [] => []
  | fuel + 1, c :: t =>
    if startsWithSeq pat (c :: t) ∧ pat ≠ [] then
      rep ++ replaceAllF pat rep fuel ((c :: t).drop pat.length)
    else
      c :: replaceAllF pat rep fuel t

/-- Python `str.replace(pat, rep)` on character lists. -/
def replaceAll (pat rep l : List Char) : List Char :=
  replaceAllF pat rep l.length l

/-- Python `str.split(sep)` for a one-character separator. -/
def splitOnChar (sep : Char) : List Char → List (List Char)
  | [] => [[]]
  | c :: t =>
    match splitOnChar sep t with
    | [] => [[]]
    | h :: r => if c = sep then [] :: h :: r else (c :: h) :: r

/-- Python `str.strip()`: remove leading and trailing whitespace. -/
def stripWs (l : List Char) : List Char :=
  ((l.dropWhile Char.isWhitespace).reverse.dropWhile Char.isWhitespace).reverse

/-- Core of Python `float` on an unsigned body: `digits`, `digits.digits`,
`digits.` or `.digits` (the decimal fragment; exponents, `inf`/`nan` and
digit-group underscores never occur in this pipeline's data and are not
modelled).  `none` models a raised `ValueError`. -/
def pyFloatCore (l : List Char) : Option ℚ :=
  match l.dropWhile Char.isDigit with
  | [] =>
    if l.takeWhile Char.isDigit = [] then none
    else some (digitsVal (l.takeWhile Char.isDigit))
  | '.' :: frac =>
    if frac.all Char.isDigit ∧ (l.takeWhile Char.isDigit ≠ [] ∨ frac ≠ []) then
      some ((digitsVal (l.takeWhile Char.isDigit) : ℚ) +
        (digitsVal frac : ℚ) / (10 : ℚ) ^ frac.length)
    else none
  | _ => none

/-- Sign handling of Python `float` after whitespace stripping. -/
def pyFloatSigned : List Char → Option ℚ
  | [] => none
  | c :: rest =>
    if c = '-' then (pyFloatCore rest).map (fun x => -x)
    else if c = '+' then pyFloatCore rest
    else pyFloatCore (c :: rest)

/-- Python `float(s)`: strip whitespace, optional sign, decimal body
(`float("")` raises). -/
def pyFloat (l : List Char) : Option ℚ :=
  pyFloatSigned (stripWs l)

/-- One position of a regex search for `pre(\d+)post` where `pre` and `post`
are literal character sequences containing no digit: the pattern matches
here iff `pre` is at the head, followed by a nonempty maximal digit run,
followed by `post`.  Returns the numeric value of the digit group. -/
def matchPDP (pre post l : List Char) : Option Nat :=
  if startsWithSeq pre l then
    let rest := l.drop pre.length
    let ds := rest.takeWhile Char.isDigit
    if ds ≠ [] ∧ startsWithSeq post (rest.dropWhile Char.isDigit) then
      some (digitsVal ds)
    else none
  else none

/-- `re.search` for `pre(\d+)post` (leftmost match), e.g. the scraper's
`バス(\d+)分`, `歩(\d+)分`, `(\d+)階建` and `(\d+)` patterns. -/
def searchPDP (pre post : List Char) : List Char → Option Nat
  | [] => none
  | c :: t =>
    match matchPDP pre post (c :: t) with
    | some v => some v
    | none => searchPDP pre post t

/-! ### `ml/data_preprocessor.py` — clean_numeric_columns (lines 12-22) -/

/-- `rent`: `str.replace("万円", "").astype(float)` — note: no dash-sentinel
mapping for this column. -/
def rent_clean (l : List Char) : Option ℚ :=
  pyFloat (replaceAll ['万', '円'] [] l)

/-- `management_fee`: `str.replace("円", "")`, then `Series.replace("-", "0")`
(a whole-value replacement, not a substring one), then `astype(float)`. -/
def management_fee_clean (l : List Char) : Option ℚ :=
  let t := replaceAll ['円'] [] l
  pyFloat (if t = ['-'] then ['0'] else t)

/-- `deposit`: `str.replace("万円", "")`, whole-value `"-" → "0"`, `astype(float)`. -/
def deposit_clean (l : List Char) : Option ℚ :=
  let t := replaceAll ['万', '円'] [] l
  pyFloat (if t = ['-'] then ['0'] else t)

/-- `key_money`: `str.replace("万円", "")`, whole-value `"-" → "0"`, `astype(float)`. -/
def key_money_clean (l : List Char) : Option ℚ :=
  let t := replaceAll ['万', '円'] [] l
  pyFloat (if t = ['-'] then ['0'] else t)

/-- `area`: `str.replace("m2", "").astype(float)` — no dash-sentinel mapping. -/
def area_clean (l : List Char) : Option ℚ :=
  pyFloat (replaceAll ['m', '2'] [] l)

/-- Python `int` on a digit string (the value `astype(int)` applies to an
extracted regex group); `none` models the raise on a missing group (`NaN`). -/
def pyIntOfGroup (g : Option Nat) : Option ℤ :=
  g.map Int.ofNat

/-- `building_age`: `age.str.replace("新築", "1").str.extract(r"(\d+)").astype(int)`.
The extract is a search for the first digit run; `astype(int)` yields an
integer (not floating-point) column. -/
def building_age_clean (l : List Char) : Option ℤ :=
  pyIntOfGroup (searchPDP [] [] (replaceAll ['新', '築'] ['1'] l))

/-- `total_floors`: `str.replace("平屋", "1階建").str.extract(r"(\d+)階建").astype(int)`. -/
def total_floors_clean (l : List Char) : Option ℤ :=
  pyIntOfGroup (searchPDP [] ['階', '建'] (replaceAll ['平', '屋'] ['1', '階', '建'] l))

/-! ### process_floor_data (lines 25-43) -/

/-- `parse_floor` on a present string value (`ml/data_preprocessor.py`
lines 26-38).  `none` is `np.nan`: returned for the literal dash, and for any
`ValueError` raised by `float` or by unpacking the split (the warning print
is observability only and is not modelled). -/
def parse_floor_chars (l : List Char) : Option ℚ :=
  if l = ['-'] then none
  else if containsSeq ['地', '下'] l then
    (pyFloat (replaceAll ['階'] [] (replaceAll ['地', '下'] [] l))).map (fun x => -x)
  else if containsSeq ['-'] l then
    match (splitOnChar '-' (replaceAll ['階'] [] l)).map pyFloat with
    | [some a, some b] => some ((a + b) / 2)
    | _ => none
  else
    pyFloat (replaceAll ['階'] [] l)

/-- `parse_floor` including the `pd.isna` guard: a missing cell parses to
missing. -/
def parse_floor (v : Option String) : Option ℚ :=
  match v with
  | none => none
  | some s => parse_floor_chars s.data

/-- Insert into a `≤`-sorted list of rationals (used to model the sort
underlying `Series.median`). -/
def insertQ (x : ℚ) : List ℚ → List ℚ
  | [] => [x]
  | y :: t => if x ≤ y then x :: y :: t else y :: insertQ x t

/-- Sort a list of rationals ascending. -/
def sortQ (l : List ℚ) : List ℚ :=
  l.foldr insertQ []

/-- `Series.median()` over the defined values: middle element of the sorted
defined values, or the mean of the two middle elements for an even count;
`none` (`NaN`) for an empty list. -/
def pandasMedian (l : List ℚ) : Option ℚ :=
  match sortQ l with
  | [] => none
  | s₀ :: s' =>
    let s := s₀ :: s'
    let n := s.length
    if n % 2 = 1 then s.get? (n / 2)
    else
      match s.get? (n / 2 - 1), s.get? (n / 2) with
      | some a, some b => some ((a + b) / 2)
      | _, _ => none

/-- `process_floor_data` restricted to the `floor` column (lines 40-42):
parse every cell, then `fillna` with the median of the defined values.
When every cell is undefined the median is itself `NaN` and `fillna`
changes nothing. -/
def process_floor_data (col : List (Option String)) : List (Option ℚ) :=
  let parsed := col.map parse_floor
  let m := pandasMedian (parsed.filterMap id)
  parsed.map (fun v =>
    match v with
    | none => m
    | some x => some x)

/-! ### parse_transit_info (lines 54-67)

The line/station regex is `(.+)/(.+?)駅` under `re.search`: a leftmost match
with a greedy first group (so the separator used is the last `/` that still
leaves a lazy nonempty `(.+?)` run before a `駅`), where `.` matches any
character except a newline. -/

/-- Lazy scan of `(.+?)駅` after the group's first character has been
consumed: stop at the first `駅`, extending over non-`駅` characters. -/
def lazyStationAux (acc : List Char) : List Char → Option (List Char)
  | [] => none
  | d :: ds =>
    if d = '駅' then some acc.reverse
    else if d = '\n' then none
    else lazyStationAux (d :: acc) ds

/-- `(.+?)駅` on the text after a candidate `/`: at least one `.` character,
then the lazy scan for the closing `駅`. -/
def lazyStation : List Char → Option (List Char)
  | [] => none
  | c :: cs => if c = '\n' then none else lazyStationAux [c] cs

/-- Worker for the `(.+)/(.+?)駅` match at a fixed start: returns the text
before the chosen `/` (possibly empty at this level) and the station group,
preferring the rightmost viable `/` (greedy `(.+)`), with every group-1
character required to be non-newline. -/
def lsAux : List Char → Option (List Char × List Char)
  | [] => none
  | c :: cs =>
    match lsAux cs with
    | some (g1, g2) => if c = '\n' then none else some (c :: g1, g2)
    | none =>
      if c = '/' then
        match lazyStation cs with
        | some g2 => some ([], g2)
        | none => none
      else none

/-- `re.search(r"(.+)/(.+?)駅", s)`: try each start position left to right;
a match additionally needs a nonempty first group. -/
def lineStationSearch : List Char → Option (List Char × List Char)
  | [] => none
  | c :: cs =>
    match lsAux (c :: cs) with
    | some (g1, g2) => if g1 ≠ [] then some (g1, g2) else lineStationSearch cs
    | none => lineStationSearch cs

/-- `re.search(r"バス(\d+)分", s)`, the bus-minutes group. -/
def searchBus (l : List Char) : Option Nat :=
  searchPDP ['バ', 'ス'] ['分'] l

/-- `re.search(r"歩(\d+)分", s)`, the walk-minutes group. -/
def searchWalk (l : List Char) : Option Nat :=
  searchPDP ['歩'] ['分'] l

/-- Result of `parse_transit_info`: `(line, station, bus_used, total_time)`. -/
structure TransitInfo where
  line : Option (List Char)
  station : Option (List Char)
  bus_used : Nat
  total_transit_time : Nat
  deriving Repr, DecidableEq

/-- `parse_transit_info` (lines 54-67): line and station from the
`(.+)/(.+?)駅` search (missing when it fails), `bus_used` as a 0/1 flag for
a bus-segment match, and the total time as bus minutes plus walk minutes
with an absent component contributing zero. -/
def parse_transit_info (l : List Char) : TransitInfo :=
  let ls := lineStationSearch l
  let bus := searchBus l
  let walk := searchWalk l
  { line := ls.map Prod.fst
    station := ls.map Prod.snd
    bus_used := if bus.isSome then 1 else 0
    total_transit_time := bus.getD 0 + walk.getD 0 }

/-! ### get_dummies with drop_first (lines 50, 75, 88)

`pd.get_dummies(df, columns=[c], drop_first=True)` replaces column `c` by
one boolean indicator column per distinct observed value, in sorted order,
with the first (smallest) category dropped; a missing cell sets no
indicator.  String order is code-point lexicographic. -/

/-- Code-point lexicographic `≤` on character lists (Python `str` order). -/
def lexLe : List Char → List Char → Bool
  | [], _ => true
  | _ :: _, [] => false
  | a :: s, b :: t =>
    if a.toNat < b.toNat then true
    else if b.toNat < a.toNat then false
    else lexLe s t

/-- Insert into a `lexLe`-sorted list. -/
def insertLex (x : List Char) : List (List Char) → List (List Char)
  | [] => [x]
  | y :: t => if lexLe x y then x :: y :: t else y :: insertLex x t

/-- Sort string values ascending in `lexLe` order. -/
def sortLex (l : List (List Char)) : List (List Char) :=
  l.foldr insertLex []

/-- The category levels of a column: the distinct defined values, sorted. -/
def sortedCats (vals : List (Option (List Char))) : List (List Char) :=
  sortLex (vals.filterMap id).dedup

/-- Indicator columns produced for one categorical column. -/
structure DummyCols where
  cols : List (List Char)
  rows : List (List Bool)
  deriving Repr, DecidableEq

/-- `pd.get_dummies(..., drop_first=True)` on one column of optional string
values: the sorted distinct categories minus the first, and per input row
one boolean per kept category (true iff the cell equals that category; a
missing cell is all-false). -/
def get_dummies_dropFirst (vals : List (Option (List Char))) : DummyCols :=
  let kept := (sortedCats vals).drop 1
  ⟨kept, vals.map (fun v => kept.map (fun c => decide (v = some c)))⟩

/-! ### extract_address_components (lines 46-51) -/

/-- The region-suffix character class `[都道府県]`. -/
def prefMarkers : List Char := ['都', '道', '府', '県']

/-- The municipality-suffix character class `[市区町村]`. -/
def muniMarkers : List Char := ['市', '区', '町', '村']

/-- Lazy scan of `^(.+?[都道府県])` after the first group character: the
group closes at the first region marker, all earlier characters non-newline. -/
def prefAux (acc : List Char) : List Char → Option (List Char)
  | [] => none
  | d :: ds =>
    if d ∈ prefMarkers then some (acc.reverse ++ [d])
    else if d = '\n' then none
    else prefAux (d :: acc) ds

/-- `str.extract(r"^(.+?[都道府県])")` — the `prefecture` column (line 47);
anchored, lazy, so the group ends at the first region marker at index ≥ 1. -/
def prefExtract : List Char → Option (List Char)
  | [] => none
  | c :: cs => if c = '\n' then none else prefAux [c] cs

/-- Lazy scan of `([^市区町村]+?[市区町村])` after its first character:
close at the first municipality marker (the class `[^市区町村]` matches any
other character, newline included). -/
def cityGroupAux (acc : List Char) : List Char → Option (List Char)
  | [] => none
  | d :: ds =>
    if d ∈ muniMarkers then some (acc.reverse ++ [d])
    else cityGroupAux (d :: acc) ds

/-- `([^市区町村]+?[市区町村])` at a fixed position: at least one non-marker
character, then the lazy scan for the closing marker. -/
def cityGroup : List Char → Option (List Char)
  | [] => none
  | c :: cs => if c ∈ muniMarkers then none else cityGroupAux [c] cs

/-- Backtracking for a greedy `\s*` before a group: `wrev` is the reversed
still-given-back whitespace; try the group on `r`, then shrink `\s*` one
character at a time. -/
def spacesBTCity : List Char → List Char → Option (List Char)
  | [], r => cityGroup r
  | c :: rest, r =>
    match cityGroup r with
    | some g => some g
    | none => spacesBTCity rest (c :: r)

/-- `\s*([^市区町村]+?[市区町村])` on the text after a region marker. -/
def spacesThenCity (rest : List Char) : Option (List Char) :=
  spacesBTCity (rest.takeWhile Char.isWhitespace).reverse
    (rest.dropWhile Char.isWhitespace)

/-- `str.extract(r"[都道府県]\s*([^市区町村]+?[市区町村])")` — the `city`
column (line 48): search for a region marker whose tail matches. -/
def cityExtract : List Char → Option (List Char)
  | [] => none
  | c :: cs =>
    if c ∈ prefMarkers then
      match spacesThenCity cs with
      | some g => some g
      | none => cityExtract cs
    else cityExtract cs

/-- Greedy `(.+)` at a fixed position: at least one non-newline character,
extending to the end of the line. -/
def dotPlusGreedy : List Char → Option (List Char)
  | [] => none
  | c :: cs => if c = '\n' then none else some (c :: cs.takeWhile (· ≠ '\n'))

/-- Backtracking for the greedy `\s*` before `(.+)`. -/
def spacesBTTown : List Char → List Char → Option (List Char)
  | [], r => dotPlusGreedy r
  | c :: rest, r =>
    match dotPlusGreedy r with
    | some g => some g
    | none => spacesBTTown rest (c :: r)

/-- `\s*(.+)` on the text after a municipality marker. -/
def spacesThenTown (rest : List Char) : Option (List Char) :=
  spacesBTTown (rest.takeWhile Char.isWhitespace).reverse
    (rest.dropWhile Char.isWhitespace)

/-- `str.extract(r"[市区町村]\s*(.+)")` — the `town` column (line 49):
search for a municipality marker followed by a nonempty remainder. -/
def townExtract : List Char → Option (List Char)
  | [] => none
  | c :: cs =>
    if c ∈ muniMarkers then
      match spacesThenTown cs with
      | some g => some g
      | none => townExtract cs
    else townExtract cs

/-- `extract_address_components` (lines 46-51): derive the `prefecture`,
`city` and `town` columns from `address`, one-hot encode `town` with
`drop_first=True`, and drop `prefecture`, `city` and `address` — only the
town indicators survive into the output. -/
def extract_address_components (addresses : List (List Char)) : DummyCols :=
  let _pref := addresses.map prefExtract
  let _city := addresses.map cityExtract
  let towns := addresses.map townExtract
  get_dummies_dropFirst towns

/-! ### Column dtypes of the cleaned dataset

The dtype each normalized numeric column is given by the source:
`astype(float)` on lines 13-17 gives float64; `astype(int)` on lines 18-21
gives int64; `total_transit_time` is assembled from the Python `int` values
returned by `parse_transit_info` (lines 61-66, 72-74), an int64 column. -/

inductive Dtype where
  | float64
  | int64
  deriving Repr, DecidableEq

/-- dtype of each normalized numeric column of the cleaned dataset, read off
the `astype`/construction sites named above; `none` for an unknown column. -/
def cleanedColumnDtype : String → Option Dtype
  | "rent" => some .float64
  | "management_fee" => some .float64
  | "deposit" => some .float64
  | "key_money" => some .float64
  | "area" => some .float64
  | "building_age" => some .int64
  | "total_floors" => some .int64
  | "total_transit_time" => some .int64
  | "floor" => some .float64
  | _ => none

/-! ### `ml/suumo_scraper.py` — record types (lines 27-50) -/

/-- Building-level fields (`PropertyDetails`, lines 27-34). -/
structure PropertyDetails where
  category : String
  name : String
  address : String
  primary_transit_access : String
  age : String
  total_floors : String
  deriving Repr, DecidableEq

/-- Room-level fields (`RoomDetails`, lines 37-45). -/
structure RoomDetails where
  floor : String
  rent : String
  management_fee : String
  deposit : String
  key_money : String
  layout : String
  area : String
  deriving Repr, DecidableEq

/-- `PropertyListing` (lines 48-50): the join of one `PropertyDetails` with
one `RoomDetails`.  Every field is a present string: a listing is only
constructed from fully extracted records. -/
structure PropertyListing where
  prop : PropertyDetails
  room : RoomDetails
  deriving Repr, DecidableEq

/-! ### Page structure and extraction (lines 61-85)

A BeautifulSoup `find` that matches nothing returns `None`, and the
subsequent `.text`/`.find_all` raises `AttributeError` — which the page
loop catches.  An empty `find_all` result indexed with `[0]`
(`IndexError`), or a detail column whose `div` count is not exactly the
two constructor slots (`TypeError`), raises an exception the loop does
not catch. -/

/-- Outcome of extracting one building or one room. -/
inductive ExtractResult (α : Type) where
  | ok (a : α)
  | attrError
  | uncaught
  deriving Repr, DecidableEq

/-- One `cassetteitem` building container, as the fields the extractor
reads: each `find(...).text` is `Option String` (`none` = element missing),
the transit column and detail column 3 are `find` results whose `find_all`
text lists are given when the column element exists. -/
structure PropertyElem where
  categoryEl : Option String
  nameEl : Option String
  addressEl : Option String
  transitTexts : Option (List String)
  detailCol3Texts : Option (List String)
  deriving Repr, DecidableEq

/-- `extract_property_details` (lines 61-72), with the source's evaluation
order: a missing element raises `AttributeError`; an empty transit list
raises `IndexError` at `[0]`; a detail column other than exactly
`[age, total_floors]` makes the dataclass call raise `TypeError`. -/
def extract_property_details (p : PropertyElem) : ExtractResult PropertyDetails :=
  match p.categoryEl with
  | none => .attrError
  | some c =>
  match p.nameEl with
  | none => .attrError
  | some n =>
  match p.addressEl with
  | none => .attrError
  | some a =>
  match p.transitTexts with
  | none => .attrError
  | some ts =>
  match ts with
  | [] => .uncaught
  | t0 :: _ =>
  match p.detailCol3Texts with
  | none => .attrError
  | some afs =>
  match afs with
  | [age, floors] => .ok ⟨c, n, a, t0, age, floors⟩
  | _ => .uncaught

/-- One `js-cassette_link` room row: whether `find_all("td")` yields the
columns indexed (2..5), the direct text of column 2, and the six inner
`find` results. -/
structure RoomElem where
  enoughTds : Bool
  floorText : String
  rentEl : Option String
  mgmtEl : Option String
  depositEl : Option String
  keyEl : Option String
  layoutEl : Option String
  areaEl : Option String
  deriving Repr, DecidableEq

/-- `extract_room_details` (lines 75-85): too few `td` columns raises an
uncaught `IndexError` first; then each inner `find` that misses raises
`AttributeError`. -/
def extract_room_details (r : RoomElem) : ExtractResult RoomDetails :=
  if ¬ r.enoughTds then .uncaught
  else
    match r.rentEl, r.mgmtEl, r.depositEl, r.keyEl, r.layoutEl, r.areaEl with
    | some rent, some mgmt, some dep, some key, some lay, some ar =>
      .ok ⟨r.floorText, rent, mgmt, dep, key, lay, ar⟩
    | _, _, _, _, _, _ => .attrError

/-- One building container paired with its room rows:
`find(class_="cassetteitem_other")` may be missing (`AttributeError` at
`.find_all`). -/
structure BuildingElem where
  propElem : PropertyElem
  roomElems : Option (List RoomElem)
  deriving Repr, DecidableEq

/-- How processing of one building's room loop ended. -/
inductive StopKind where
  | completed
  | attrStop
  | fatalStop
  deriving Repr, DecidableEq

/-- The inner room loop (lines 112-114) under the page loop's
`except AttributeError` (line 115): rooms are processed in order and each
success is appended; the first failing room raises out of the loop, keeping
the listings already appended and dropping the failing room and every
later sibling room. -/
def processRooms (pd : PropertyDetails) :
    List RoomElem → List PropertyListing × StopKind
  | [] => ([], .completed)
  | r :: rs =>
    match extract_room_details r with
    | .ok rd => (⟨pd, rd⟩ :: (processRooms pd rs).1, (processRooms pd rs).2)
    | .attrError => ([], .attrStop)
    | .uncaught => ([], .fatalStop)

/-- One iteration of the building loop (lines 108-117): property extraction
failure with `AttributeError` (or a missing room container) drops the
building and continues; an uncaught exception propagates. -/
def processBuilding (b : BuildingElem) : List PropertyListing × StopKind :=
  match extract_property_details b.propElem with
  | .attrError => ([], .attrStop)
  | .uncaught => ([], .fatalStop)
  | .ok pd =>
    match b.roomElems with
    | none => ([], .attrStop)
    | some rooms => processRooms pd rooms

/-- The building loop over one page: accumulate each building's listings;
`attrStop` is caught (`continue`), `fatalStop` aborts the run (the boolean
flag), keeping nothing visible since the run never returns. -/
def processPage : List BuildingElem → List PropertyListing × Bool
  | [] => ([], false)
  | b :: bs =>
    match (processBuilding b).2 with
    | .fatalStop => ((processBuilding b).1, true)
    | _ => ((processBuilding b).1 ++ (processPage bs).1, (processPage bs).2)

/-! ### fetch_suumo_page and the collector loop (lines 53-58, 88-124) -/

/-- `@retry(tries=3, delay=10, backoff=2)` around a fallible call:
`f k = true` means attempt `k` succeeds.  Returns whether the call finally
succeeded, the number of attempts made, and the list of waits (seconds)
performed between attempts. -/
def retryRun (f : Nat → Bool) : Nat → Nat → Nat → Bool × Nat × List Nat
  | 0, _, _ => (false, 0, [])
  | 1, _, attempt => (f attempt, 1, [])
  | t + 2, delay, attempt =>
    if f attempt then (true, 1, [])
    else
      let (r, n, ds) := retryRun f (t + 1) (delay * 2) (attempt + 1)
      (r, n + 1, delay :: ds)

/-- `fetch_suumo_page` retry behaviour: three tries, base delay 10 seconds,
backoff factor 2. -/
def fetch_suumo_page (f : Nat → Bool) : Bool × Nat × List Nat :=
  retryRun f 3 10 1

/-- The environment one page presents to the collector: the per-attempt
fetch outcomes and, when fetched, the page's building containers. -/
structure PageEnv where
  fetchAttempt : Nat → Bool
  buildings : List BuildingElem

/-- The page loop of `scrape_suumo_listings` (lines 92-119): on a fetch
that fails all retries, skip to the next page (`continue`, line 99); on an
empty container list, stop (`break`, line 106); otherwise process the
page's buildings, aborting the whole run on an uncaught extraction error.
`fuel` is the number of page indices left (down from `max_pages`). -/
def scrapeAux (env : Nat → PageEnv) : Nat → Nat → Except Unit (List PropertyListing)
  | 0, _ => .ok []
  | fuel + 1, pageNum =>
    let p := env pageNum
    if (fetch_suumo_page p.fetchAttempt).1 then
      if p.buildings = [] then .ok []
      else
        match processPage p.buildings with
        | (_, true) => .error ()
        | (l, false) =>
          match scrapeAux env fuel (pageNum + 1) with
          | .ok rest => .ok (l ++ rest)
          | .error e => .error e
    else scrapeAux env fuel (pageNum + 1)

/-- `scrape_suumo_listings(max_pages)`: pages 1 through `max_pages`. -/
def scrape_suumo_listings (env : Nat → PageEnv) (max_pages : Nat) :
    Except Unit (List PropertyListing) :=
  scrapeAux env max_pages 1

/-! ### General lemmas about the string machinery -/

/-- A decimal digit is distinct from any character that is not one. -/
theorem isDigit_ne {c x : Char} (h : c.isDigit = true) (hx : x.isDigit = false) :
    c ≠ x := by
  intro e
  rw [e, hx] at h
  exact Bool.noConfusion h

/-- A decimal digit is not whitespace. -/
theorem isDigit_not_ws {c : Char} (h : c.isDigit = true) : c.isWhitespace = false := by
  by_contra hw
  rw [Bool.not_eq_false] at hw
  have hcases : c = ' ' ∨ c = '\t' ∨ c = '\r' ∨ c = '\n' := by
    revert hw
    unfold Char.isWhitespace
    simp only [Bool.or_eq_true, decide_eq_true_eq]
    tauto
  rcases hcases with rfl | rfl | rfl | rfl <;> exact absurd h (by decide)

/-- `dropWhile` is the identity on a list none of whose elements satisfy
the predicate. -/
theorem dropWhile_of_none {p : Char → Bool} {l : List Char}
    (h : ∀ c ∈ l, p c = false) : l.dropWhile p = l := by
  cases l with
  | nil => rfl
  | cons c t => simp [List.dropWhile_cons, h c (List.mem_cons_self c t)]

/-- `takeWhile` keeps a whole list of satisfying elements. -/
theorem takeWhile_of_all {p : Char → Bool} {l : List Char}
    (h : ∀ c ∈ l, p c = true) : l.takeWhile p = l := by
  induction l with
  | nil => rfl
  | cons c t ih =>
    simp [List.takeWhile_cons, h c (List.mem_cons_self c t),
      ih fun x hx => h x (List.mem_cons_of_mem c hx)]

/-- `dropWhile` consumes a whole list of satisfying elements. -/
theorem dropWhile_of_all {p : Char → Bool} {l : List Char}
    (h : ∀ c ∈ l, p c = true) : l.dropWhile p = [] := by
  induction l with
  | nil => rfl
  | cons c t ih =>
    simp [List.dropWhile_cons, h c (List.mem_cons_self c t),
      ih fun x hx => h x (List.mem_cons_of_mem c hx)]

/-- `takeWhile` over an all-satisfying block followed by a failing element. -/
theorem takeWhile_block {p : Char → Bool} {d : List Char} {x : Char} (r : List Char)
    (hd : ∀ c ∈ d, p c = true) (hx : p x = false) :
    (d ++ x :: r).takeWhile p = d := by
  induction d with
  | nil => simp [List.takeWhile_cons, hx]
  | cons c t ih =>
    simp only [List.cons_append, List.takeWhile_cons, hd c (List.mem_cons_self c t),
      if_true]
    rw [ih fun a ha => hd a (List.mem_cons_of_mem c ha)]

/-- `dropWhile` over an all-satisfying block followed by a failing element. -/
theorem dropWhile_block {p : Char → Bool} {d : List Char} {x : Char} (r : List Char)
    (hd : ∀ c ∈ d, p c = true) (hx : p x = false) :
    (d ++ x :: r).dropWhile p = x :: r := by
  induction d with
  | nil => simp [List.dropWhile_cons, hx]
  | cons c t ih =>
    simp only [List.cons_append, List.dropWhile_cons, hd c (List.mem_cons_self c t),
      if_true]
    exact ih fun a ha => hd a (List.mem_cons_of_mem c ha)

/-- Stripping whitespace does not change a whitespace-free list. -/
theorem stripWs_of_none {l : List Char} (h : ∀ c ∈ l, c.isWhitespace = false) :
    stripWs l = l := by
  unfold stripWs
  rw [dropWhile_of_none h, dropWhile_of_none (by simpa using h), List.reverse_reverse]

/-- `pyFloatCore` on a nonempty all-digit list is its numeric value. -/
theorem pyFloatCore_digits {d : List Char} (hne : d ≠ [])
    (hd : ∀ c ∈ d, c.isDigit = true) : pyFloatCore d = some ((digitsVal d : ℚ)) := by
  unfold pyFloatCore
  rw [takeWhile_of_all hd, dropWhile_of_all hd]
  simp [hne]

/-- `pyFloat` on a nonempty all-digit list is its numeric value. -/
theorem pyFloat_digits {d : List Char} (hne : d ≠ [])
    (hd : ∀ c ∈ d, c.isDigit = true) : pyFloat d = some ((digitsVal d : ℚ)) := by
  have hws : ∀ c ∈ d, c.isWhitespace = false := fun c hc => isDigit_not_ws (hd c hc)
  unfold pyFloat
  rw [stripWs_of_none hws]
  cases d with
  | nil => exact absurd rfl hne
  | cons c t =>
    have hc : c.isDigit = true := hd c (List.mem_cons_self c t)
    rw [pyFloatSigned, if_neg (isDigit_ne hc (by decide)),
      if_neg (isDigit_ne hc (by decide))]
    exact pyFloatCore_digits hne hd

/-- A sequence occurs at the head of itself followed by anything. -/
theorem startsWith_self_append (pat m : List Char) :
    startsWithSeq pat (pat ++ m) = true := by
  induction pat with
  | nil => rfl
  | cons c t ih => simp [startsWithSeq, ih]

/-- A sequence with head `p` does not occur at the head of a list whose head
differs from `p`. -/
theorem startsWith_head_false {p a : Char} (ps t : List Char) (h : a ≠ p) :
    startsWithSeq (p :: ps) (a :: t) = false := by
  simp [startsWithSeq]
  intro e
  exact absurd e.symm h

/-- `replaceAllF` on the empty list, any fuel. -/
theorem replaceAllF_nil (pat rep : List Char) (f : Nat) :
    replaceAllF pat rep f [] = [] := by
  cases f <;> rfl

/-- The result of `replaceAllF` does not depend on the fuel once the fuel
covers the length of the scanned list. -/
theorem replaceAllF_congr (pat rep : List Char) :
    ∀ f1 f2 l, l.length ≤ f1 → l.length ≤ f2 →
      replaceAllF pat rep f1 l = replaceAllF pat rep f2 l := by
  intro f1
  induction f1 with
  | zero =>
    intro f2 l h1 _
    rw [List.eq_nil_of_length_eq_zero (Nat.le_zero.mp h1), replaceAllF_nil,
      replaceAllF_nil]
  | succ fs ih =>
    intro f2 l h1 h2
    cases l with
    | nil => rw [replaceAllF_nil, replaceAllF_nil]
    | cons c t =>
      cases f2 with
      | zero => simp at h2
      | succ gs =>
        rw [replaceAllF, replaceAllF]
        by_cases hcond : startsWithSeq pat (c :: t) = true ∧ pat ≠ []
        · rw [if_pos hcond, if_pos hcond]
          have hlen : ((c :: t).drop pat.length).length ≤ fs := by
            rw [List.length_drop]
            have : 1 ≤ pat.length := by
              cases pat with
              | nil => exact absurd rfl hcond.2
              | cons _ _ => simp
            simp only [List.length_cons] at h1 ⊢
            omega
          have hlen2 : ((c :: t).drop pat.length).length ≤ gs := by
            rw [List.length_drop]
            have : 1 ≤ pat.length := by
              cases pat with
              | nil => exact absurd rfl hcond.2
              | cons _ _ => simp
            simp only [List.length_cons] at h2 ⊢
            omega
          rw [ih gs _ hlen hlen2]
        · rw [if_neg hcond, if_neg hcond]
          have ht1 : t.length ≤ fs := by simp only [List.length_cons] at h1; omega
          have ht2 : t.length ≤ gs := by simp only [List.length_cons] at h2; omega
          rw [ih gs t ht1 ht2]

/-- Fuelled version of `replaceAll_skip`. -/
theorem replaceAllF_skip {p : Char} (ps rep : List Char) :
    ∀ (l : List Char) (m : List Char) (fuel : Nat), (l ++ m).length ≤ fuel →
      (∀ a ∈ l, a ≠ p) →
      replaceAllF (p :: ps) rep fuel (l ++ m) =
        l ++ replaceAllF (p :: ps) rep m.length m := by
  intro l
  induction l with
  | nil =>
    intro m fuel hf _
    simpa using replaceAllF_congr (p :: ps) rep fuel m.length m (by simpa using hf)
      (Nat.le_refl _)
  | cons c t ih =>
    intro m fuel hf h
    cases fuel with
    | zero => simp at hf
    | succ fs =>
      have hc : c ≠ p := h c (List.mem_cons_self c t)
      have hcond : ¬(startsWithSeq (p :: ps) (c :: (t ++ m)) = true ∧ (p :: ps) ≠ []) := by
        rw [startsWith_head_false ps _ hc]
        simp
      rw [List.cons_append, replaceAllF, if_neg hcond]
      rw [ih m fs (by simpa using Nat.lt_succ_iff.mp (Nat.lt_of_lt_of_le
        (by simp) hf)) fun a ha => h a (List.mem_cons_of_mem c ha)]
      simp

/-- `replaceAll` scans past a block that cannot start a match. -/
theorem replaceAll_skip {p : Char} {ps l : List Char} (rep m : List Char)
    (h : ∀ a ∈ l, a ≠ p) :
    replaceAll (p :: ps) rep (l ++ m) = l ++ replaceAll (p :: ps) rep m := by
  unfold replaceAll
  exact replaceAllF_skip ps rep l m (l ++ m).length (Nat.le_refl _) h

/-- `replaceAll` of the empty list. -/
theorem replaceAll_nil (pat rep : List Char) : replaceAll pat rep [] = [] := rfl

/-- `replaceAll` replaces a match sitting at the head of the list. -/
theorem replaceAll_eat {p : Char} {ps : List Char} (rep m : List Char) :
    replaceAll (p :: ps) rep ((p :: ps) ++ m) = rep ++ replaceAll (p :: ps) rep m := by
  unfold replaceAll
  have hcond : startsWithSeq (p :: ps) ((p :: ps) ++ m) = true ∧ (p :: ps) ≠ [] :=
    ⟨startsWith_self_append _ _, by simp⟩
  rw [show ((p :: ps) ++ m).length = (ps ++ m).length + 1 by simp]
  rw [show ((p :: ps) ++ m) = p :: (ps ++ m) by simp]
  rw [replaceAllF, if_pos (by simpa using hcond)]
  have hdrop : (p :: (ps ++ m)).drop (p :: ps).length = m := by
    rw [show p :: (ps ++ m) = (p :: ps) ++ m by simp]
    exact List.drop_left _ _
  rw [hdrop]
  have hlen : m.length ≤ (ps ++ m).length := by simp
  rw [replaceAllF_congr (p :: ps) rep _ m.length m hlen (Nat.le_refl _)]

/-- `replaceAll` is the identity when no character can start a match. -/
theorem replaceAll_id {p : Char} {ps l : List Char} (rep : List Char)
    (h : ∀ a ∈ l, a ≠ p) : replaceAll (p :: ps) rep l = l := by
  have := @replaceAll_skip p ps l rep [] h
  simpa [replaceAll_nil] using this

/-- Replacing a single character by nothing is filtering it out. -/
theorem replaceAll_single {c : Char} : ∀ l : List Char,
    replaceAll [c] [] l = l.filter (· ≠ c) := by
  have key : ∀ fuel l, l.length ≤ fuel →
      replaceAllF [c] [] fuel l = l.filter (· ≠ c) := by
    intro fuel
    induction fuel with
    | zero =>
      intro l h
      rw [List.eq_nil_of_length_eq_zero (Nat.le_zero.mp h)]
      rfl
    | succ fs ih =>
      intro l h
      cases l with
      | nil => rfl
      | cons a t =>
        have ht : t.length ≤ fs := by simp only [List.length_cons] at h; omega
        by_cases hac : a = c
        · subst hac
          have hcond : startsWithSeq [a] (a :: t) = true ∧ ([a] : List Char) ≠ [] := by
            simp [startsWithSeq]
          rw [replaceAllF, if_pos hcond]
          simp only [List.length_singleton, List.drop_succ_cons, List.drop_zero,
            List.nil_append]
          rw [ih t ht, List.filter_cons]
          simp
        · have hcond : ¬(startsWithSeq [c] (a :: t) = true ∧ ([c] : List Char) ≠ []) := by
            rw [startsWith_head_false [] t hac]
            simp
          rw [replaceAllF, if_neg hcond, ih t ht, List.filter_cons]
          simp [hac]
  intro l
  exact key l.length l (Nat.le_refl _)

/-- `splitOnChar` never yields an empty list of parts. -/
theorem splitOnChar_ne_nil (sep : Char) : ∀ l, splitOnChar sep l ≠ [] := by
  intro l
  induction l with
  | nil => simp [splitOnChar]
  | cons c t ih =>
    rw [splitOnChar]
    rcases hs : splitOnChar sep t with _ | ⟨h, r⟩
    · simp
    · by_cases hc : c = sep <;> simp [hc]

/-- Splitting a separator-free list yields the list itself. -/
theorem splitOnChar_of_none {sep : Char} {l : List Char}
    (h : ∀ a ∈ l, a ≠ sep) : splitOnChar sep l = [l] := by
  induction l with
  | nil => rfl
  | cons c t ih =>
    rw [splitOnChar, ih fun a ha => h a (List.mem_cons_of_mem c ha)]
    simp [h c (List.mem_cons_self c t)]

/-- Splitting a list at its first separator. -/
theorem splitOnChar_append {sep : Char} {l₁ : List Char} (l₂ : List Char)
    (h : ∀ a ∈ l₁, a ≠ sep) :
    splitOnChar sep (l₁ ++ sep :: l₂) = l₁ :: splitOnChar sep l₂ := by
  induction l₁ with
  | nil =>
    rw [List.nil_append, splitOnChar]
    rcases hs : splitOnChar sep l₂ with _ | ⟨hh, r⟩
    · exact absurd hs (splitOnChar_ne_nil sep l₂)
    · simp
  | cons c t ih =>
    rw [List.cons_append, splitOnChar, ih fun a ha => h a (List.mem_cons_of_mem c ha)]
    simp [h c (List.mem_cons_self c t)]

/-- `containsSeq` is false when no character of the hay can start the
needle. -/
theorem containsSeq_of_none {p : Char} {ps l : List Char}
    (h : ∀ a ∈ l, a ≠ p) : containsSeq (p :: ps) l = false := by
  induction l with
  | nil => rfl
  | cons c t ih =>
    rw [containsSeq, startsWith_head_false ps t (h c (List.mem_cons_self c t)),
      ih fun a ha => h a (List.mem_cons_of_mem c ha)]
    rfl

/-- `containsSeq` holds when the needle sits at the head. -/
theorem containsSeq_of_head {pat : List Char} (m : List Char) :
    ∀ {l : List Char}, l = pat ++ m → pat ≠ [] → containsSeq pat l = true := by
  intro l he hne
  subst he
  cases pat with
  | nil => exact absurd rfl hne
  | cons c t =>
    rw [List.cons_append, containsSeq]
    have hsw : startsWithSeq (c :: t) (c :: (t ++ m)) = true := by
      rw [show c :: (t ++ m) = (c :: t) ++ m from rfl]
      exact startsWith_self_append _ _
    rw [hsw]
    rfl

/-- `matchPDP` fails at a position whose head cannot start `pre`. -/
theorem matchPDP_head_false {p a : Char} (ps post t : List Char) (h : a ≠ p) :
    matchPDP (p :: ps) post (a :: t) = none := by
  unfold matchPDP
  rw [startsWith_head_false ps t h]
  simp

/-- `searchPDP` scans past a block that cannot start `pre`. -/
theorem searchPDP_skip {p : Char} {ps l : List Char} (post m : List Char)
    (h : ∀ a ∈ l, a ≠ p) :
    searchPDP (p :: ps) post (l ++ m) = searchPDP (p :: ps) post m := by
  induction l with
  | nil => rfl
  | cons c t ih =>
    rw [List.cons_append, searchPDP,
      matchPDP_head_false ps post _ (h c (List.mem_cons_self c t))]
    exact ih fun a ha => h a (List.mem_cons_of_mem c ha)

/-- `searchPDP` finds nothing in a block that cannot start `pre`. -/
theorem searchPDP_of_none {p : Char} {ps l : List Char} (post : List Char)
    (h : ∀ a ∈ l, a ≠ p) : searchPDP (p :: ps) post l = none := by
  have := @searchPDP_skip p ps l post [] h
  simpa using this

/-- `matchPDP` at a canonical occurrence `pre ++ digits ++ post ++ rest`
yields the digit-group value (for a `post` whose head is not a digit). -/
theorem matchPDP_canonical {d : List Char} {q : Char} (pre qs rest : List Char)
    (hd : ∀ c ∈ d, c.isDigit = true) (hne : d ≠ []) (hq : q.isDigit = false) :
    matchPDP pre (q :: qs) (pre ++ (d ++ q :: (qs ++ rest))) = some (digitsVal d) := by
  unfold matchPDP
  have h1 : startsWithSeq pre (pre ++ (d ++ q :: (qs ++ rest))) = true :=
    startsWith_self_append _ _
  have h2 : List.drop pre.length (pre ++ (d ++ q :: (qs ++ rest))) =
      d ++ q :: (qs ++ rest) := List.drop_left _ _
  have h3 := @takeWhile_block Char.isDigit d q (qs ++ rest) hd hq
  have h4 := @dropWhile_block Char.isDigit d q (qs ++ rest) hd hq
  have h5 : startsWithSeq (q :: qs) (q :: (qs ++ rest)) = true := by
    rw [show q :: (qs ++ rest) = (q :: qs) ++ rest from rfl]
    exact startsWith_self_append _ _
  simp only [h1, h2, h3, h4, h5, if_true]
  simp [hne]

/-- `searchPDP` at a position where `matchPDP` succeeds. -/
theorem searchPDP_of_match {pre post : List Char} {c : Char} {t : List Char} {v : Nat}
    (h : matchPDP pre post (c :: t) = some v) :
    searchPDP pre post (c :: t) = some v := by
  rw [searchPDP, h]

/-- A later occurrence stays an occurrence. -/
theorem containsSeq_append {pat m : List Char} (l₁ : List Char)
    (h : containsSeq pat m = true) : containsSeq pat (l₁ ++ m) = true := by
  induction l₁ with
  | nil => simpa using h
  | cons c t ih => simp [containsSeq, ih]

/-! ### Lemmas about `parse_floor` -/

/-- On a basement-marked floor string `地下<digits>階`, `parse_floor` yields
the negated digit value. -/
theorem parse_floor_basement {d : List Char} (hne : d ≠ [])
    (hd : ∀ c ∈ d, c.isDigit = true) :
    parse_floor_chars ('地' :: '下' :: (d ++ ['階'])) = some (-(digitsVal d : ℚ)) := by
  have hnotdash : ('地' :: '下' :: (d ++ ['階'])) ≠ ['-'] := by
    intro h
    injection h with h1 _
    exact absurd h1 (by decide)
  have hmem : ∀ a ∈ d ++ ['階'], a ≠ '地' := by
    intro a ha
    rcases List.mem_append.mp ha with h | h
    · exact isDigit_ne (hd a h) (by decide)
    · simp only [List.mem_singleton] at h
      subst h
      decide
  have hcont : containsSeq ['地', '下'] ('地' :: '下' :: (d ++ ['階'])) = true :=
    @containsSeq_of_head ['地', '下'] (d ++ ['階']) ('地' :: '下' :: (d ++ ['階']))
      rfl (by simp)
  unfold parse_floor_chars
  rw [if_neg hnotdash, hcont, if_pos rfl,
    show ('地' :: '下' :: (d ++ ['階'])) = ['地', '下'] ++ (d ++ ['階']) from rfl,
    replaceAll_eat, replaceAll_id _ hmem, List.nil_append,
    replaceAll_single, List.filter_append, List.filter_eq_self.mpr
      (fun a ha => by simpa using isDigit_ne (hd a ha) (by decide))]
  have hfil : List.filter (fun x => decide (x ≠ '階')) ['階'] = [] := by decide
  rw [hfil, List.append_nil, pyFloat_digits hne hd]
  rfl

/-- On a range floor string `<digits>-<digits>階`, `parse_floor` yields the
mean of the two endpoint values. -/
theorem parse_floor_range {d₁ d₂ : List Char} (h₁ : d₁ ≠ []) (h₂ : d₂ ≠ [])
    (hd₁ : ∀ c ∈ d₁, c.isDigit = true) (hd₂ : ∀ c ∈ d₂, c.isDigit = true) :
    parse_floor_chars (d₁ ++ '-' :: (d₂ ++ ['階'])) =
      some (((digitsVal d₁ : ℚ) + (digitsVal d₂ : ℚ)) / 2) := by
  have hnotdash : (d₁ ++ '-' :: (d₂ ++ ['階'])) ≠ ['-'] := by
    cases d₁ with
    | nil => exact absurd rfl h₁
    | cons c t =>
      intro h
      rw [List.cons_append] at h
      injection h with hc ht
      exact absurd hc (isDigit_ne (hd₁ c (List.mem_cons_self c t)) (by decide))
  have hmemchi : ∀ a ∈ d₁ ++ '-' :: (d₂ ++ ['階']), a ≠ '地' := by
    intro a ha
    rcases List.mem_append.mp ha with h | h
    · exact isDigit_ne (hd₁ a h) (by decide)
    · rcases List.mem_cons.mp h with h | h
      · subst h; decide
      · rcases List.mem_append.mp h with h | h
        · exact isDigit_ne (hd₂ a h) (by decide)
        · simp only [List.mem_singleton] at h
          subst h; decide
  have hdashcont : containsSeq ['-'] (d₁ ++ '-' :: (d₂ ++ ['階'])) = true :=
    containsSeq_append d₁
      (@containsSeq_of_head ['-'] (d₂ ++ ['階']) ('-' :: (d₂ ++ ['階'])) rfl (by simp))
  unfold parse_floor_chars
  rw [if_neg hnotdash, containsSeq_of_none hmemchi, if_neg (by decide : ¬(false = true))]
  rw [hdashcont,
    if_pos rfl, replaceAll_single, List.filter_append, List.filter_cons,
    List.filter_append, List.filter_eq_self.mpr
      (fun a ha => by simpa using isDigit_ne (hd₁ a ha) (by decide)),
    List.filter_eq_self.mpr
      (fun a ha => by simpa using isDigit_ne (hd₂ a ha) (by decide))]
  have hfil : List.filter (fun x => decide (x ≠ '階')) ['階'] = [] := by decide
  have hdash : (decide ('-' ≠ '階')) = true := by decide
  rw [hfil, List.append_nil, hdash]
  simp only [if_true]
  rw [splitOnChar_append d₂ (fun a ha => isDigit_ne (hd₁ a ha) (by decide)),
    splitOnChar_of_none (fun a ha => isDigit_ne (hd₂ a ha) (by decide)),
    List.map_cons, List.map_cons, List.map_nil,
    pyFloat_digits h₁ hd₁, pyFloat_digits h₂ hd₂]

/-- On a plain floor string `<digits>階`, `parse_floor` yields the digit
value. -/
theorem parse_floor_plain {d : List Char} (hne : d ≠ [])
    (hd : ∀ c ∈ d, c.isDigit = true) :
    parse_floor_chars (d ++ ['階']) = some (digitsVal d : ℚ) := by
  have hnotdash : (d ++ ['階']) ≠ ['-'] := by
    cases d with
    | nil => exact absurd rfl hne
    | cons c t =>
      intro h
      rw [List.cons_append] at h
      injection h with hc _
      exact absurd hc (isDigit_ne (hd c (List.mem_cons_self c t)) (by decide))
  have hmem : ∀ x : Char, x.isDigit = false → ('階'.isDigit = false) →
      ('階' : Char) ≠ x → ∀ a ∈ d ++ ['階'], a ≠ x := by
    intro x hx _ hkx a ha
    rcases List.mem_append.mp ha with h | h
    · exact isDigit_ne (hd a h) hx
    · simp only [List.mem_singleton] at h
      subst h
      exact hkx
  unfold parse_floor_chars
  rw [if_neg hnotdash,
    containsSeq_of_none (hmem '地' (by decide) (by decide) (by decide)),
    if_neg (by decide : ¬(false = true)),
    containsSeq_of_none (hmem '-' (by decide) (by decide) (by decide)),
    if_neg (by decide : ¬(false = true)),
    replaceAll_single, List.filter_append, List.filter_eq_self.mpr
      (fun a ha => by simpa using isDigit_ne (hd a ha) (by decide))]
  have hfil : List.filter (fun x => decide (x ≠ '階')) ['階'] = [] := by decide
  rw [hfil, List.append_nil, pyFloat_digits hne hd]

/-! ### Lemmas about the median imputation -/

/-- `insertQ` adds one element. -/
theorem length_insertQ (x : ℚ) : ∀ l : List ℚ, (insertQ x l).length = l.length + 1 := by
  intro l
  induction l with
  | nil => rfl
  | cons y t ih =>
    rw [insertQ]
    by_cases h : x ≤ y
    · rw [if_pos h]; rfl
    · rw [if_neg h, List.length_cons, ih, List.length_cons]

/-- Sorting preserves length. -/
theorem length_sortQ (l : List ℚ) : (sortQ l).length = l.length := by
  unfold sortQ
  induction l with
  | nil => rfl
  | cons y t ih => rw [List.foldr_cons, length_insertQ, ih, List.length_cons]

/-- The pandas median of a nonempty list is defined. -/
theorem pandasMedian_isSome {l : List ℚ} (h : l ≠ []) :
    ∃ m, pandasMedian l = some m := by
  unfold pandasMedian
  rcases hs : sortQ l with _ | ⟨a, s⟩
  · have := length_sortQ l
    rw [hs] at this
    exact absurd (List.eq_nil_of_length_eq_zero this.symm) h
  · simp only []
    by_cases hodd : (a :: s).length % 2 = 1
    · rw [if_pos hodd]
      have hlt : (a :: s).length / 2 < (a :: s).length :=
        Nat.div_lt_self (by simp) (by omega)
      exact ⟨_, List.get?_eq_get hlt⟩
    · rw [if_neg hodd]
      have hlt : (a :: s).length / 2 < (a :: s).length :=
        Nat.div_lt_self (by simp) (by omega)
      have hlt2 : (a :: s).length / 2 - 1 < (a :: s).length := by omega
      rw [List.get?_eq_get hlt, List.get?_eq_get hlt2]
      exact ⟨_, rfl⟩

/-! ### Claim theorems -/

/-- Claim C1: the floor-field normalizer maps a missing value or the literal
dash to undefined; a basement-marked string `地下<digits>階` to the negated
number (`地下2階 → -2.0`); a hyphen range `<digits>-<digits>階` to the mean
of the endpoints (`3-5階 → 4.0`); a plain `<digits>階` to the literal
number; and a non-numeric remainder to undefined without raising (the
function is total); afterwards every undefined value in the column is
replaced by the median of the defined values. -/
theorem C1_floor_field_normalizer :
    (parse_floor none = none) ∧
    (parse_floor (some "-") = none) ∧
    (∀ d : List Char, d ≠ [] → (∀ c ∈ d, c.isDigit = true) →
      parse_floor (some (String.mk ('地' :: '下' :: (d ++ ['階'])))) =
        some (-(digitsVal d : ℚ))) ∧
    (∀ d₁ d₂ : List Char, d₁ ≠ [] → d₂ ≠ [] → (∀ c ∈ d₁, c.isDigit = true) →
      (∀ c ∈ d₂, c.isDigit = true) →
      parse_floor (some (String.mk (d₁ ++ '-' :: (d₂ ++ ['階'])))) =
        some (((digitsVal d₁ : ℚ) + (digitsVal d₂ : ℚ)) / 2)) ∧
    (∀ d : List Char, d ≠ [] → (∀ c ∈ d, c.isDigit = true) →
      parse_floor (some (String.mk (d ++ ['階']))) = some (digitsVal d : ℚ)) ∧
    (parse_floor (some "地下2階") = some (-2 : ℚ)) ∧
    (parse_floor (some "3-5階") = some (4 : ℚ)) ∧
    (parse_floor (some "最上階") = none) ∧
    (∀ col : List (Option String), (col.map parse_floor).filterMap id ≠ [] →
      ∀ i : Nat,
        (∀ x : ℚ, (col.map parse_floor).get? i = some (some x) →
          (process_floor_data col).get? i = some (some x)) ∧
        ((col.map parse_floor).get? i = some none →
          ∃ m, pandasMedian ((col.map parse_floor).filterMap id) = some m ∧
            (process_floor_data col).get? i = some (some m))) := by
  refine ⟨rfl, by decide, ?_, ?_, ?_, ?_, ?_, by decide, ?_⟩
  · intro d hne hd
    exact parse_floor_basement hne hd
  · intro d₁ d₂ h₁ h₂ hd₁ hd₂
    exact parse_floor_range h₁ h₂ hd₁ hd₂
  · intro d hne hd
    exact parse_floor_plain hne hd
  · have h := @parse_floor_basement ['2'] (by decide) (by decide)
    have e : digitsVal ['2'] = 2 := by decide
    rw [e] at h
    calc parse_floor (some "地下2階") = some (-((2 : ℕ) : ℚ)) := h
      _ = some (-2 : ℚ) := by norm_num
  · have h := @parse_floor_range ['3'] ['5']
      (by decide) (by decide) (by decide) (by decide)
    have e1 : digitsVal ['3'] = 3 := by decide
    have e2 : digitsVal ['5'] = 5 := by decide
    rw [e1, e2] at h
    calc parse_floor (some "3-5階") = some ((((3 : ℕ) : ℚ) + ((5 : ℕ) : ℚ)) / 2) := h
      _ = some (4 : ℚ) := by norm_num
  · intro col hne i
    constructor
    · intro x hx
      unfold process_floor_data
      simp only []
      rw [List.get?_map, hx]
      rfl
    · intro hx
      obtain ⟨m, hm⟩ :=
        @pandasMedian_isSome ((col.map parse_floor).filterMap id) hne
      refine ⟨m, hm, ?_⟩
      unfold process_floor_data
      simp only []
      rw [List.get?_map, hx]
      show some (pandasMedian (List.filterMap id (List.map parse_floor col))) =
        some (some m)
      rw [hm]

/-- Witness for C1: the basement and imputation branches at concrete
inputs. -/
theorem C1_floor_field_normalizer_witness :
    ((['2'] : List Char) ≠ [] ∧ (∀ c ∈ (['2'] : List Char), c.isDigit = true)) ∧
    parse_floor (some (String.mk ('地' :: '下' :: (['2'] ++ ['階'])))) =
      some (-(digitsVal ['2'] : ℚ)) :=
  ⟨⟨by decide, by decide⟩,
    C1_floor_field_normalizer.2.2.1 ['2'] (by decide) (by decide)⟩

/-- Counterexample for C2 as stated: the claim includes `rent` among the
fields whose literal-dash sentinel maps to `0.0`, but the `rent` column has
no sentinel mapping — `float("-")` raises, modelled as `none`, not
`some 0`. -/
theorem C2_numeric_normalizer_counterexample :
    rent_clean ['-'] = none ∧ rent_clean ['-'] ≠ some 0 := by
  refine ⟨by decide, ?_⟩
  intro h
  rw [show rent_clean ['-'] = none by decide] at h
  exact Option.noConfusion h

/-- Claim C2 (amended): for well-formed amount strings each normalizer
strips its unit suffix and parses the remainder as a decimal number
(`12.5万円 → 12.5`); the literal-dash sentinel maps to `0.0` for the
management-fee, deposit and key-money columns only — the rent and area
columns have no sentinel mapping and fail on a bare dash. -/
theorem C2_numeric_field_normalizer_amended :
    (∀ d : List Char, d ≠ [] → (∀ c ∈ d, c.isDigit = true) →
      rent_clean (d ++ ['万', '円']) = some (digitsVal d : ℚ) ∧
      management_fee_clean (d ++ ['円']) = some (digitsVal d : ℚ) ∧
      deposit_clean (d ++ ['万', '円']) = some (digitsVal d : ℚ) ∧
      key_money_clean (d ++ ['万', '円']) = some (digitsVal d : ℚ) ∧
      area_clean (d ++ ['m', '2']) = some (digitsVal d : ℚ)) ∧
    (rent_clean "12.5万円".data = some ((25 : ℚ) / 2)) ∧
    (management_fee_clean ['-'] = some 0 ∧ deposit_clean ['-'] = some 0 ∧
      key_money_clean ['-'] = some 0) ∧
    (rent_clean ['-'] = none ∧ area_clean ['-'] = none) := by
  have strip2 : ∀ (p q : Char), p.isDigit = false →
      ∀ d : List Char, (∀ c ∈ d, c.isDigit = true) →
      replaceAll [p, q] [] (d ++ [p, q]) = d := by
    intro p q hp d hd
    rw [replaceAll_skip [] [p, q] fun a ha => isDigit_ne (hd a ha) hp]
    have he := @replaceAll_eat p [q] [] []
    rw [List.append_nil] at he
    rw [he, replaceAll_nil]
    simp
  have dnotdash : ∀ d : List Char, d ≠ [] → (∀ c ∈ d, c.isDigit = true) →
      d ≠ ['-'] := by
    intro d hne hd h
    subst h
    exact absurd (hd '-' (List.mem_cons_self _ _)) (by decide)
  refine ⟨?_, ?_, ⟨?_, ?_, ?_⟩, by decide, by decide⟩
  · intro d hne hd
    refine ⟨?_, ?_, ?_, ?_, ?_⟩
    · unfold rent_clean
      rw [strip2 '万' '円' (by decide) d hd, pyFloat_digits hne hd]
    · unfold management_fee_clean
      simp only []
      rw [replaceAll_single, List.filter_append, List.filter_eq_self.mpr
        (fun a ha => by simpa using isDigit_ne (hd a ha) (by decide))]
      have hfil : List.filter (fun x => decide (x ≠ '円')) ['円'] = [] := by decide
      rw [hfil, List.append_nil, if_neg (dnotdash d hne hd), pyFloat_digits hne hd]
    · unfold deposit_clean
      simp only []
      rw [strip2 '万' '円' (by decide) d hd, if_neg (dnotdash d hne hd),
        pyFloat_digits hne hd]
    · unfold key_money_clean
      simp only []
      rw [strip2 '万' '円' (by decide) d hd, if_neg (dnotdash d hne hd),
        pyFloat_digits hne hd]
    · unfold area_clean
      rw [strip2 'm' '2' (by decide) d hd, pyFloat_digits hne hd]
  · have h1 : digitsVal ['1', '2'] = 12 := by decide
    have h2 : digitsVal ['5'] = 5 := by decide
    norm_num +decide [rent_clean, replaceAll, replaceAllF, startsWithSeq, pyFloat,
      pyFloatSigned, pyFloatCore, stripWs, h1, h2]
  · have h0 : digitsVal ['0'] = 0 := by decide
    norm_num +decide [management_fee_clean, replaceAll, replaceAllF, startsWithSeq,
      pyFloat, pyFloatSigned, pyFloatCore, stripWs, h0]
  · have h0 : digitsVal ['0'] = 0 := by decide
    norm_num +decide [deposit_clean, replaceAll, replaceAllF, startsWithSeq,
      pyFloat, pyFloatSigned, pyFloatCore, stripWs, h0]
  · have h0 : digitsVal ['0'] = 0 := by decide
    norm_num +decide [key_money_clean, replaceAll, replaceAllF, startsWithSeq,
      pyFloat, pyFloatSigned, pyFloatCore, stripWs, h0]

/-- Witness for the amended C2 at the one-digit amount `9`. -/
theorem C2_numeric_field_normalizer_witness :
    ((['9'] : List Char) ≠ [] ∧ (∀ c ∈ (['9'] : List Char), c.isDigit = true)) ∧
    (rent_clean (['9'] ++ ['万', '円']) = some (digitsVal ['9'] : ℚ) ∧
      management_fee_clean (['9'] ++ ['円']) = some (digitsVal ['9'] : ℚ) ∧
      deposit_clean (['9'] ++ ['万', '円']) = some (digitsVal ['9'] : ℚ) ∧
      key_money_clean (['9'] ++ ['万', '円']) = some (digitsVal ['9'] : ℚ) ∧
      area_clean (['9'] ++ ['m', '2']) = some (digitsVal ['9'] : ℚ)) :=
  ⟨⟨by decide, by decide⟩,
    C2_numeric_field_normalizer_amended.1 ['9'] (by decide) (by decide)⟩

/-- Claim C10: during numeric normalization the newly-built marker `新築`
normalizes to a building age of 1 (not 0), and the single-story marker
`平屋` normalizes to a total floor count of 1. -/
theorem C10_marker_normalization :
    building_age_clean "新築".data = some 1 ∧
    total_floors_clean "平屋".data = some 1 := by
  decide

/-- Claim C3: `fetch_suumo_page` makes at most 3 attempts, surfaces a fetch
error exactly when all 3 attempts fail, waits 10 seconds then 20 seconds
between attempts (base delay doubled per retry), and in the collector loop
a page whose fetch fails after all retries is skipped while the run
continues with the next page index. -/
theorem C3_fetch_retry_policy :
    (∀ f : Nat → Bool, (fetch_suumo_page f).2.1 ≤ 3) ∧
    (∀ f : Nat → Bool,
      ((fetch_suumo_page f).1 = false ↔ f 1 = false ∧ f 2 = false ∧ f 3 = false)) ∧
    (∀ f : Nat → Bool, (fetch_suumo_page f).2.2 =
      if f 1 = true then [] else if f 2 = true then [10] else [10, 20]) ∧
    (∀ (env : Nat → PageEnv) (fuel pageNum : Nat),
      (fetch_suumo_page (env pageNum).fetchAttempt).1 = false →
      scrapeAux env (fuel + 1) pageNum = scrapeAux env fuel (pageNum + 1)) := by
  have key : ∀ f : Nat → Bool,
      fetch_suumo_page f =
        if f 1 = true then (true, 1, [])
        else if f 2 = true then (true, 2, [10])
        else (f 3, 3, [10, 20]) := by
    intro f
    unfold fetch_suumo_page
    by_cases h1 : f 1 = true <;> by_cases h2 : f 2 = true <;>
      simp [retryRun, h1, h2]
  refine ⟨?_, ?_, ?_, ?_⟩
  · intro f
    rw [key f]
    by_cases h1 : f 1 = true <;> by_cases h2 : f 2 = true <;> simp [h1, h2]
  · intro f
    rw [key f]
    by_cases h1 : f 1 = true <;> by_cases h2 : f 2 = true <;>
      simp [h1, h2, Bool.not_eq_true]
  · intro f
    rw [key f]
    by_cases h1 : f 1 = true <;> by_cases h2 : f 2 = true <;> simp [h1, h2]
  · intro env fuel pageNum hfail
    rw [scrapeAux]
    simp only [hfail]
    simp

/-- Witness for C3: a page whose three attempts all fail is skipped. -/
theorem C3_fetch_retry_policy_witness :
    (fetch_suumo_page ((fun _ => ⟨fun _ => false, []⟩ : Nat → PageEnv) 1).fetchAttempt).1
        = false ∧
    scrapeAux (fun _ => ⟨fun _ => false, []⟩) 1 1 =
      scrapeAux (fun _ => ⟨fun _ => false, []⟩) 0 2 :=
  ⟨by decide, C3_fetch_retry_policy.2.2.2 (fun _ => ⟨fun _ => false, []⟩) 0 1 (by decide)⟩

/-- Claim C5: pagination stops exactly on a page with zero building
containers: in a run of at least two pages where page 1 fetches and parses
to some listings and page 2 fetches but has zero containers, the collector
returns exactly page 1's listings, whatever later pages would contain. -/
theorem C5_pagination_termination :
    ∀ (env : Nat → PageEnv) (max_pages : Nat) (l₁ : List PropertyListing),
      2 ≤ max_pages →
      (fetch_suumo_page (env 1).fetchAttempt).1 = true →
      (env 1).buildings ≠ [] →
      processPage (env 1).buildings = (l₁, false) →
      (fetch_suumo_page (env 2).fetchAttempt).1 = true →
      (env 2).buildings = [] →
      scrape_suumo_listings env max_pages = .ok l₁ := by
  intro env max_pages l₁ hmax hf1 hb1 hp1 hf2 hb2
  obtain ⟨m, rfl⟩ := Nat.exists_eq_add_of_le hmax
  unfold scrape_suumo_listings
  rw [show 2 + m = (m + 1) + 1 by omega]
  rw [scrapeAux]
  simp only [hf1, if_true, if_neg hb1, hp1]
  rw [scrapeAux]
  simp only [hf2, if_true, hb2, if_pos rfl]
  simp

/-- Witness for C5: a two-page run whose second page is empty returns the
single listing of page 1. -/
theorem C5_pagination_termination_witness :
    scrape_suumo_listings
      (fun n =>
        if n = 1 then
          ⟨fun _ => true,
            [⟨⟨some "ア", some "名", some "住", some ["交"], some ["築1年", "2階建"]⟩,
              some [⟨true, "2階", some "5万円", some "3000円", some "5万円",
                some "-", some "1K", some "20m2"⟩]⟩]⟩
        else ⟨fun _ => true, []⟩)
      2 =
      .ok [⟨⟨"ア", "名", "住", "交", "築1年", "2階建"⟩,
        ⟨"2階", "5万円", "3000円", "5万円", "-", "1K", "20m2"⟩⟩] :=
  C5_pagination_termination _ 2 _ (by decide) (by decide) (by decide) (by decide)
    (by decide) (by decide)

/-- Listings produced by the room loop of one building all come from an
`ok` room extraction and carry that building's property details. -/
theorem processRooms_mem {pd : PropertyDetails} :
    ∀ (rs : List RoomElem) (x : PropertyListing), x ∈ (processRooms pd rs).1 →
      x.prop = pd ∧ ∃ r ∈ rs, extract_room_details r = .ok x.room := by
  intro rs
  induction rs with
  | nil =>
    intro x hx
    simp [processRooms] at hx
  | cons r t ih =>
    intro x hx
    rw [processRooms] at hx
    cases he : extract_room_details r with
    | ok rd =>
      rw [he] at hx
      simp only [List.mem_cons] at hx
      rcases hx with hx | hx
      · subst hx
        exact ⟨rfl, r, List.mem_cons_self r t, by rw [he]⟩
      · obtain ⟨hp, r', hr', he'⟩ := ih x hx
        exact ⟨hp, r', List.mem_cons_of_mem r hr', he'⟩
    | attrError => rw [he] at hx; simp at hx
    | uncaught => rw [he] at hx; simp at hx

/-- Listings produced by one building all come from an `ok` property
extraction, a present room container and an `ok` room extraction. -/
theorem processBuilding_mem (b : BuildingElem) (x : PropertyListing)
    (hx : x ∈ (processBuilding b).1) :
    extract_property_details b.propElem = .ok x.prop ∧
      ∃ rooms, b.roomElems = some rooms ∧
        ∃ r ∈ rooms, extract_room_details r = .ok x.room := by
  unfold processBuilding at hx
  cases hp : extract_property_details b.propElem with
  | ok pd =>
    rw [hp] at hx
    cases hr : b.roomElems with
    | none => rw [hr] at hx; simp at hx
    | some rooms =>
      rw [hr] at hx
      obtain ⟨hxp, r, hrm, hre⟩ := processRooms_mem rooms x hx
      exact ⟨by rw [hxp], rooms, rfl, r, hrm, hre⟩
  | attrError => rw [hp] at hx; simp at hx
  | uncaught => rw [hp] at hx; simp at hx

/-- Counterexample for C4 as stated: a building whose first room is missing
its rent element and whose second room is fully well-formed yields no
listing at all — the well-formed sibling room does not proceed, because the
`except AttributeError` wraps the whole room loop. -/
theorem C4_sibling_room_counterexample :
    (processPage
      [⟨⟨some "ア", some "名", some "住", some ["交"], some ["築1年", "2階建"]⟩,
        some [⟨true, "2階", none, some "管", some "敷", some "礼", some "間", some "面"⟩,
          ⟨true, "3階", some "賃", some "管", some "敷", some "礼", some "間", some "面"⟩]⟩]).1
      = [] ∧
    extract_room_details
      ⟨true, "3階", some "賃", some "管", some "敷", some "礼", some "間", some "面"⟩ =
      .ok ⟨"3階", "賃", "管", "敷", "礼", "間", "面"⟩ := by
  decide

/-- Claim C4 (amended): a building whose property extraction hits a missing
element is dropped alone, sibling buildings proceeding; a room whose
extraction hits a missing element is dropped together with every later
sibling room of the same building while the listings of earlier sibling
rooms are kept; a caught failure never stops sibling buildings; and every
produced listing comes from fully extracted (hence non-null) property and
room records. -/
theorem C4_extraction_isolation_amended :
    (∀ (b : BuildingElem) (bs : List BuildingElem),
      extract_property_details b.propElem = .attrError →
      processPage (b :: bs) = processPage bs) ∧
    (∀ (pd : PropertyDetails) (good : List RoomElem) (bad : RoomElem)
        (rest : List RoomElem),
      (processRooms pd good).2 = .completed →
      extract_room_details bad = .attrError →
      processRooms pd (good ++ bad :: rest) = ((processRooms pd good).1, .attrStop)) ∧
    (∀ (b : BuildingElem) (bs : List BuildingElem),
      (processBuilding b).2 = .attrStop →
      processPage (b :: bs) =
        ((processBuilding b).1 ++ (processPage bs).1, (processPage bs).2)) ∧
    (∀ (bs : List BuildingElem) (x : PropertyListing), x ∈ (processPage bs).1 →
      ∃ b ∈ bs, extract_property_details b.propElem = .ok x.prop ∧
        ∃ rooms, b.roomElems = some rooms ∧
          ∃ r ∈ rooms, extract_room_details r = .ok x.room) := by
  refine ⟨?_, ?_, ?_, ?_⟩
  · intro b bs h
    have hb : processBuilding b = ([], .attrStop) := by
      unfold processBuilding
      rw [h]
    rw [processPage, hb]
    simp
  · intro pd good bad rest hgood hbad
    induction good with
    | nil =>
      rw [List.nil_append]
      show processRooms pd (bad :: rest) = _
      simp only [processRooms, hbad]
    | cons g t ih =>
      simp only [processRooms] at hgood
      cases he : extract_room_details g with
      | ok rd =>
        simp only [he] at hgood
        simp only [List.cons_append, processRooms, he, List.append_eq]
        rw [ih hgood]
      | attrError => simp [he] at hgood
      | uncaught => simp [he] at hgood
  · intro b bs h
    rw [processPage, h]
  · intro bs
    induction bs with
    | nil =>
      intro x hx
      simp [processPage] at hx
    | cons b t ih =>
      intro x hx
      rw [processPage] at hx
      cases hk : (processBuilding b).2 with
      | fatalStop =>
        rw [hk] at hx
        obtain ⟨h1, h2⟩ := processBuilding_mem b x hx
        exact ⟨b, List.mem_cons_self b t, h1, h2⟩
      | attrStop =>
        rw [hk] at hx
        have hx2 : x ∈ (processBuilding b).1 ++ (processPage t).1 := hx
        rcases List.mem_append.mp hx2 with hx3 | hx3
        · obtain ⟨h1, h2⟩ := processBuilding_mem b x hx3
          exact ⟨b, List.mem_cons_self b t, h1, h2⟩
        · obtain ⟨b2, hb2, h2⟩ := ih x hx3
          exact ⟨b2, List.mem_cons_of_mem b hb2, h2⟩
      | completed =>
        rw [hk] at hx
        have hx2 : x ∈ (processBuilding b).1 ++ (processPage t).1 := hx
        rcases List.mem_append.mp hx2 with hx3 | hx3
        · obtain ⟨h1, h2⟩ := processBuilding_mem b x hx3
          exact ⟨b, List.mem_cons_self b t, h1, h2⟩
        · obtain ⟨b2, hb2, h2⟩ := ih x hx3
          exact ⟨b2, List.mem_cons_of_mem b hb2, h2⟩

/-- Witness for the amended C4: one kept room before a failing room. -/
theorem C4_extraction_isolation_witness :
    ((processRooms ⟨"ア", "名", "住", "交", "築1年", "2階建"⟩
        [⟨true, "3階", some "賃", some "管", some "敷", some "礼", some "間", some "面"⟩]).2
      = .completed) ∧
    (extract_room_details
        ⟨true, "2階", none, some "管", some "敷", some "礼", some "間", some "面"⟩ =
      .attrError) ∧
    processRooms ⟨"ア", "名", "住", "交", "築1年", "2階建"⟩
        ([⟨true, "3階", some "賃", some "管", some "敷", some "礼", some "間", some "面"⟩] ++
          ⟨true, "2階", none, some "管", some "敷", some "礼", some "間", some "面"⟩ :: []) =
      ((processRooms ⟨"ア", "名", "住", "交", "築1年", "2階建"⟩
        [⟨true, "3階", some "賃", some "管", some "敷", some "礼", some "間", some "面"⟩]).1,
        .attrStop) :=
  ⟨by decide, by decide,
    C4_extraction_isolation_amended.2.1
      ⟨"ア", "名", "住", "交", "築1年", "2階建"⟩
      [⟨true, "3階", some "賃", some "管", some "敷", some "礼", some "間", some "面"⟩]
      ⟨true, "2階", none, some "管", some "敷", some "礼", some "間", some "面"⟩
      [] (by decide) (by decide)⟩

/-- Claim C6: the transit-field parser's total time is the sum of the
matched bus-minutes and walk-minutes components, independent of segment
order, with an absent component contributing zero; a description with
neither segment yields 0 (the parser is total, so it never errors). -/
theorem C6_transit_total_time :
    (∀ bd wd : List Char, bd ≠ [] → wd ≠ [] →
      (∀ c ∈ bd, c.isDigit = true) → (∀ c ∈ wd, c.isDigit = true) →
      (parse_transit_info
          ('バ' :: 'ス' :: (bd ++ '分' :: ('歩' :: (wd ++ ['分']))))).total_transit_time =
        digitsVal bd + digitsVal wd ∧
      (parse_transit_info
          ('歩' :: (wd ++ '分' :: ('バ' :: 'ス' :: (bd ++ ['分']))))).total_transit_time =
        digitsVal bd + digitsVal wd) ∧
    (∀ l : List Char, (∀ c ∈ l, c ≠ 'バ') → (∀ c ∈ l, c ≠ '歩') →
      (parse_transit_info l).total_transit_time = 0) := by
  have hbus : ∀ (bd rest : List Char), bd ≠ [] → (∀ c ∈ bd, c.isDigit = true) →
      searchBus ('バ' :: 'ス' :: (bd ++ '分' :: rest)) = some (digitsVal bd) := by
    intro bd rest hne hd
    have hm := @matchPDP_canonical bd '分' ['バ', 'ス'] [] rest hd hne (by decide)
    rw [List.nil_append] at hm
    exact searchPDP_of_match hm
  have hwalk : ∀ (wd rest : List Char), wd ≠ [] → (∀ c ∈ wd, c.isDigit = true) →
      searchWalk ('歩' :: (wd ++ '分' :: rest)) = some (digitsVal wd) := by
    intro wd rest hne hd
    have hm := @matchPDP_canonical wd '分' ['歩'] [] rest hd hne (by decide)
    rw [List.nil_append] at hm
    exact searchPDP_of_match hm
  constructor
  · intro bd wd hbne hwne hbd hwd
    constructor
    · show (searchBus _).getD 0 + (searchWalk _).getD 0 = _
      rw [hbus bd _ hbne hbd]
      have hshape : 'バ' :: 'ス' :: (bd ++ '分' :: ('歩' :: (wd ++ ['分']))) =
          ('バ' :: 'ス' :: (bd ++ ['分'])) ++ ('歩' :: (wd ++ ['分'])) := by
        simp
      have hmem : ∀ a ∈ 'バ' :: 'ス' :: (bd ++ ['分']), a ≠ '歩' := by
        intro a ha
        rcases List.mem_cons.mp ha with rfl | ha
        · decide
        rcases List.mem_cons.mp ha with rfl | ha
        · decide
        rcases List.mem_append.mp ha with ha | ha
        · exact isDigit_ne (hbd a ha) (by decide)
        · simp only [List.mem_singleton] at ha
          subst ha
          decide
      have hw : searchWalk ('バ' :: 'ス' :: (bd ++ '分' :: ('歩' :: (wd ++ ['分'])))) =
          some (digitsVal wd) := by
        unfold searchWalk
        rw [hshape, searchPDP_skip ['分'] _ hmem]
        have := hwalk wd [] hwne hwd
        simpa using this
      rw [hw]
      rfl
    · show (searchBus _).getD 0 + (searchWalk _).getD 0 = _
      have hshape : '歩' :: (wd ++ '分' :: ('バ' :: 'ス' :: (bd ++ ['分']))) =
          ('歩' :: (wd ++ ['分'])) ++ ('バ' :: 'ス' :: (bd ++ ['分'])) := by
        simp
      have hmem : ∀ a ∈ '歩' :: (wd ++ ['分']), a ≠ 'バ' := by
        intro a ha
        rcases List.mem_cons.mp ha with rfl | ha
        · decide
        rcases List.mem_append.mp ha with ha | ha
        · exact isDigit_ne (hwd a ha) (by decide)
        · simp only [List.mem_singleton] at ha
          subst ha
          decide
      have hb : searchBus ('歩' :: (wd ++ '分' :: ('バ' :: 'ス' :: (bd ++ ['分'])))) =
          some (digitsVal bd) := by
        unfold searchBus
        rw [hshape, searchPDP_skip ['分'] _ hmem]
        have := hbus bd [] hbne hbd
        simpa using this
      rw [hb, hwalk wd _ hwne hwd]
      rfl
  · intro l hnb hnw
    show (searchBus l).getD 0 + (searchWalk l).getD 0 = 0
    unfold searchBus searchWalk
    rw [searchPDP_of_none _ hnb, searchPDP_of_none _ hnw]
    rfl

/-- Witness for C6 at a 10-minute bus segment and a 5-minute walk
segment. -/
theorem C6_transit_total_time_witness :
    (parse_transit_info
        ('バ' :: 'ス' :: (['1', '0'] ++ '分' :: ('歩' :: (['5'] ++ ['分']))))).total_transit_time =
      digitsVal ['1', '0'] + digitsVal ['5'] ∧
    (parse_transit_info
        ('歩' :: (['5'] ++ '分' :: ('バ' :: 'ス' :: (['1', '0'] ++ ['分']))))).total_transit_time =
      digitsVal ['1', '0'] + digitsVal ['5'] :=
  C6_transit_total_time.1 ['1', '0'] ['5'] (by decide) (by decide) (by decide)
    (by decide)

/-- A town match further right keeps `townExtract` defined. -/
theorem townExtract_mono {t : List Char} (x : Char) (h : townExtract t ≠ none) :
    townExtract (x :: t) ≠ none := by
  rw [townExtract]
  by_cases hx : x ∈ muniMarkers
  · rw [if_pos hx]
    cases hs : spacesThenTown t with
    | none => exact h
    | some g => simp
  · rw [if_neg hx]
    exact h

/-- Claim C7: the address decomposer never raises (it is a total function);
an address with a municipality marker followed by a nonempty remainder
yields a defined town remainder; an address with no municipality marker
yields a missing one; only the one-hot encoded town remainder survives into
the output (prefecture, city and the address itself are dropped); and a
missing remainder sets no indicator column. -/
theorem C7_address_decomposer :
    (∀ (pre rem : List Char) (c h : Char), c ∈ muniMarkers →
      rem.head? = some h → h.isWhitespace = false →
      townExtract (pre ++ c :: rem) ≠ none) ∧
    (∀ s : List Char, (∀ a ∈ s, a ∉ muniMarkers) → townExtract s = none) ∧
    (∀ addresses : List (List Char),
      extract_address_components addresses =
        get_dummies_dropFirst (addresses.map townExtract)) ∧
    (∀ (vals : List (Option (List Char))) (i : Nat) (row : List Bool),
      vals.get? i = some none →
      (get_dummies_dropFirst vals).rows.get? i = some row →
      ∀ b ∈ row, b = false) := by
  refine ⟨?_, ?_, fun _ => rfl, ?_⟩
  · intro pre rem c h hc hh hws
    have hbase : townExtract (c :: rem) ≠ none := by
      cases rem with
      | nil => simp at hh
      | cons r t =>
        have hrh : r = h := by simpa using hh
        have hrnws : r.isWhitespace = false := by rw [hrh]; exact hws
        have hst : ∃ g, spacesThenTown (r :: t) = some g := by
          unfold spacesThenTown
          rw [List.takeWhile_cons, hrnws]
          simp only [Bool.false_eq_true, if_false, List.reverse_nil,
            List.dropWhile_cons, hrnws]
          rw [spacesBTTown, dotPlusGreedy]
          have hnl : r ≠ '\n' := by
            intro e
            rw [e] at hrnws
            exact absurd hrnws (by decide)
          rw [if_neg hnl]
          exact ⟨_, rfl⟩
        obtain ⟨g, hg⟩ := hst
        rw [townExtract, if_pos hc, hg]
        simp
    induction pre with
    | nil => exact hbase
    | cons x t ih => exact townExtract_mono x ih
  · intro s hs
    induction s with
    | nil => rfl
    | cons c t ih =>
      rw [townExtract, if_neg (hs c (List.mem_cons_self c t))]
      exact ih fun a ha => hs a (List.mem_cons_of_mem c ha)
  · intro vals i row hv hr b hb
    unfold get_dummies_dropFirst at hr
    simp only [List.get?_map, hv] at hr
    injection hr with hr
    subst hr
    simp only [List.mem_map] at hb
    obtain ⟨c, _, hc⟩ := hb
    simp [← hc]

/-- Witness for C7 at the address `東京都国分寺市南町`. -/
theorem C7_address_decomposer_witness :
    ('市' ∈ muniMarkers ∧ ("南町".data).head? = some '南' ∧
      ('南' : Char).isWhitespace = false) ∧
    townExtract ("東京都国分寺".data ++ '市' :: "南町".data) ≠ none :=
  ⟨⟨by decide, by decide, by decide⟩,
    C7_address_decomposer.1 "東京都国分寺".data "南町".data '市' '南'
      (by decide) (by decide) (by decide)⟩

/-- Counterexample for C8 as stated: the claim lists `building_age` among
the floating-point columns, but the source builds it with `astype(int)` —
an int64 column, not floating point. -/
theorem C8_dtype_counterexample :
    cleanedColumnDtype "building_age" = some Dtype.int64 ∧
    cleanedColumnDtype "building_age" ≠ some Dtype.float64 := by
  constructor
  · rfl
  · intro h
    have : Dtype.int64 = Dtype.float64 := by
      have h2 : (some Dtype.int64 : Option Dtype) = some Dtype.float64 := by
        rw [← h]
        rfl
      injection h2
    exact Dtype.noConfusion this

/-- Claim C8 (amended): of the normalized numeric columns, rent, management
fee, deposit, key money and area are floating point and the floor column is
a floating-point, median-imputed value with no undefined cells left (when
any cell parsed); building age, total floors and total transit time are
integer columns (`astype(int)` / Python `int`), not floating point. -/
theorem C8_column_dtypes_amended :
    (cleanedColumnDtype "rent" = some Dtype.float64 ∧
      cleanedColumnDtype "management_fee" = some Dtype.float64 ∧
      cleanedColumnDtype "deposit" = some Dtype.float64 ∧
      cleanedColumnDtype "key_money" = some Dtype.float64 ∧
      cleanedColumnDtype "area" = some Dtype.float64 ∧
      cleanedColumnDtype "floor" = some Dtype.float64) ∧
    (cleanedColumnDtype "building_age" = some Dtype.int64 ∧
      cleanedColumnDtype "total_floors" = some Dtype.int64 ∧
      cleanedColumnDtype "total_transit_time" = some Dtype.int64) ∧
    (∀ col : List (Option String), (col.map parse_floor).filterMap id ≠ [] →
      ∀ v ∈ process_floor_data col, v ≠ none) := by
  refine ⟨⟨rfl, rfl, rfl, rfl, rfl, rfl⟩, ⟨rfl, rfl, rfl⟩, ?_⟩
  intro col hne v hv
  unfold process_floor_data at hv
  simp only [List.mem_map] at hv
  obtain ⟨p, _, hpv⟩ := hv
  cases p with
  | some x => simp [← hpv]
  | none =>
    obtain ⟨m, hm⟩ := @pandasMedian_isSome ((col.map parse_floor).filterMap id) hne
    rw [← hpv]
    show pandasMedian ((col.map parse_floor).filterMap id) ≠ none
    rw [hm]
    simp

/-- Witness for the amended C8: a one-row floor column with a defined
value. -/
theorem C8_column_dtypes_witness :
    (([some "2階"].map parse_floor).filterMap id ≠ [] ∧
      cleanedColumnDtype "building_age" = some Dtype.int64) ∧
    (∀ v ∈ process_floor_data [some "2階"], v ≠ none) :=
  ⟨⟨by decide, rfl⟩, C8_column_dtypes_amended.2.2 [some "2階"] (by decide)⟩

/-! ### Order and sorting lemmas for the categorical encoder -/

/-- `lexLe` is reflexive. -/
theorem lexLe_refl : ∀ a : List Char, lexLe a a = true := by
  intro a
  induction a with
  | nil => rfl
  | cons c t ih => simp [lexLe, Nat.lt_irrefl, ih]

/-- `lexLe` is total. -/
theorem lexLe_total : ∀ a b : List Char, lexLe a b = true ∨ lexLe b a = true := by
  intro a
  induction a with
  | nil => intro b; left; rfl
  | cons c t ih =>
    intro b
    cases b with
    | nil => right; rfl
    | cons d u =>
      rw [lexLe, lexLe]
      by_cases h1 : c.toNat < d.toNat
      · left; rw [if_pos h1]
      · by_cases h2 : d.toNat < c.toNat
        · right; rw [if_pos h2]
        · rw [if_neg h1, if_neg h2, if_neg h2, if_neg h1]
          exact ih u

/-- `lexLe` is transitive. -/
theorem lexLe_trans : ∀ a b c : List Char,
    lexLe a b = true → lexLe b c = true → lexLe a c = true := by
  intro a
  induction a with
  | nil => intro b c _ _; rfl
  | cons x s ih =>
    intro b c hab hbc
    cases b with
    | nil => simp [lexLe] at hab
    | cons y t =>
      cases c with
      | nil => simp [lexLe] at hbc
      | cons z u =>
        rw [lexLe] at hab hbc ⊢
        by_cases hxy : x.toNat < y.toNat
        · by_cases hyz : y.toNat < z.toNat
          · rw [if_pos (Nat.lt_trans hxy hyz)]
          · by_cases hzy : z.toNat < y.toNat
            · rw [if_neg hyz, if_pos hzy] at hbc
              exact absurd hbc (by decide)
            · rw [if_pos (show x.toNat < z.toNat by omega)]
        · by_cases hyx : y.toNat < x.toNat
          · rw [if_neg hxy, if_pos hyx] at hab
            exact absurd hab (by decide)
          · by_cases hyz : y.toNat < z.toNat
            · rw [if_pos (show x.toNat < z.toNat by omega)]
            · by_cases hzy : z.toNat < y.toNat
              · rw [if_neg hyz, if_pos hzy] at hbc
                exact absurd hbc (by decide)
              · rw [if_neg (show ¬ x.toNat < z.toNat by omega),
                  if_neg (show ¬ z.toNat < x.toNat by omega)]
                rw [if_neg hxy, if_neg hyx] at hab
                rw [if_neg hyz, if_neg hzy] at hbc
                exact ih t u hab hbc

/-- Membership in an insertion. -/
theorem mem_insertLex (x : List Char) :
    ∀ (l : List (List Char)) (y : List Char), y ∈ insertLex x l ↔ y = x ∨ y ∈ l := by
  intro l
  induction l with
  | nil => intro y; simp [insertLex]
  | cons z t ih =>
    intro y
    rw [insertLex]
    by_cases h : lexLe x z = true
    · rw [if_pos h]
      simp [List.mem_cons]
    · rw [if_neg h]
      simp only [List.mem_cons, ih y]
      tauto

/-- Insertion preserves sortedness. -/
theorem pairwise_insertLex (x : List Char) :
    ∀ l : List (List Char), l.Pairwise (fun a b => lexLe a b = true) →
      (insertLex x l).Pairwise (fun a b => lexLe a b = true) := by
  intro l
  induction l with
  | nil => intro _; simp [insertLex]
  | cons y t ih =>
    intro hp
    obtain ⟨hy, ht⟩ := List.pairwise_cons.mp hp
    rw [insertLex]
    by_cases hxy : lexLe x y = true
    · rw [if_pos hxy]
      refine List.Pairwise.cons ?_ hp
      intro z hz
      rcases List.mem_cons.mp hz with rfl | hz
      · exact hxy
      · exact lexLe_trans x y z hxy (hy z hz)
    · rw [if_neg hxy]
      have hyx : lexLe y x = true := by
        rcases lexLe_total x y with h | h
        · exact absurd h hxy
        · exact h
      refine List.Pairwise.cons ?_ (ih ht)
      intro z hz
      rcases (mem_insertLex x t z).mp hz with rfl | hz
      · exact hyx
      · exact hy z hz

/-- Insertion preserves distinctness when the element is new. -/
theorem nodup_insertLex (x : List Char) :
    ∀ l : List (List Char), x ∉ l → l.Nodup → (insertLex x l).Nodup := by
  intro l
  induction l with
  | nil => intro _ _; simp [insertLex]
  | cons y t ih =>
    intro hx hnd
    obtain ⟨hy, ht⟩ := List.nodup_cons.mp hnd
    rw [insertLex]
    by_cases hxy : lexLe x y = true
    · rw [if_pos hxy]
      exact List.nodup_cons.mpr ⟨hx, hnd⟩
    · rw [if_neg hxy]
      refine List.nodup_cons.mpr ⟨?_, ih (fun hxt => hx (List.mem_cons_of_mem y hxt)) ht⟩
      intro hmem
      rcases (mem_insertLex x t y).mp hmem with rfl | hmem
      · exact hx (List.mem_cons_self y t)
      · exact hy hmem

/-- Sorting preserves membership. -/
theorem mem_sortLex : ∀ (l : List (List Char)) (y : List Char),
    y ∈ sortLex l ↔ y ∈ l := by
  intro l
  induction l with
  | nil => intro y; rfl
  | cons z t ih =>
    intro y
    unfold sortLex at ih ⊢
    rw [List.foldr_cons, mem_insertLex, ih y, List.mem_cons]

/-- The sort output is sorted. -/
theorem pairwise_sortLex : ∀ l : List (List Char),
    (sortLex l).Pairwise (fun a b => lexLe a b = true) := by
  intro l
  induction l with
  | nil => exact List.Pairwise.nil
  | cons z t ih =>
    unfold sortLex at ih ⊢
    rw [List.foldr_cons]
    exact pairwise_insertLex z _ ih

/-- The sort output of distinct values is distinct. -/
theorem nodup_sortLex : ∀ l : List (List Char), l.Nodup → (sortLex l).Nodup := by
  intro l
  induction l with
  | nil => intro _; exact List.nodup_nil
  | cons z t ih =>
    intro hnd
    obtain ⟨hz, ht⟩ := List.nodup_cons.mp hnd
    unfold sortLex at ih ⊢
    rw [List.foldr_cons]
    exact nodup_insertLex z _ (fun hm => hz ((mem_sortLex t z).mp hm)) (ih ht)

/-- Sorting preserves length. -/
theorem length_sortLex : ∀ l : List (List Char), (sortLex l).length = l.length := by
  have hins : ∀ (x : List Char) (l : List (List Char)),
      (insertLex x l).length = l.length + 1 := by
    intro x l
    induction l with
    | nil => rfl
    | cons y t ih =>
      rw [insertLex]
      by_cases h : lexLe x y = true
      · rw [if_pos h]; rfl
      · rw [if_neg h, List.length_cons, ih, List.length_cons]
  intro l
  induction l with
  | nil => rfl
  | cons z t ih =>
    unfold sortLex at ih ⊢
    rw [List.foldr_cons, hins, ih, List.length_cons]

/-- A defined categorical value observed in a column. -/
theorem mem_filterMap_id {vals : List (Option (List Char))} {c : List Char} :
    c ∈ vals.filterMap id ↔ some c ∈ vals := by
  rw [List.mem_filterMap]
  constructor
  · rintro ⟨a, ha, hac⟩
    rw [show a = some c from hac] at ha
    exact ha
  · intro h
    exact ⟨some c, h, rfl⟩

/-- Claim C9: for a categorical column, the encoder emits one indicator
column per distinct observed value except the first distinct value in the
default (lexicographic) ordering, which is dropped; each row's indicators
select exactly its own value; and since the encoder is a pure function of
the input column, applying it twice to the same input yields the same
indicator columns with the same values. -/
theorem C9_categorical_encoder (vals : List (Option (List Char)))
    (hne : vals.filterMap id ≠ []) :
    ∃ d : List Char, some d ∈ vals ∧ d ∉ (get_dummies_dropFirst vals).cols ∧
      (∀ c : List Char, some c ∈ vals → lexLe d c = true) ∧
      (∀ c : List Char,
        c ∈ (get_dummies_dropFirst vals).cols ↔ (some c ∈ vals ∧ c ≠ d)) ∧
      (get_dummies_dropFirst vals).cols.length + 1 =
        (vals.filterMap id).dedup.length ∧
      (get_dummies_dropFirst vals).rows =
        vals.map (fun v =>
          (get_dummies_dropFirst vals).cols.map (fun c => decide (v = some c))) ∧
      get_dummies_dropFirst vals = get_dummies_dropFirst vals := by
  have hLne : (vals.filterMap id).dedup ≠ [] := by
    intro h
    rw [List.dedup_eq_nil] at h
    exact hne h
  rcases hc : sortLex ((vals.filterMap id).dedup) with _ | ⟨d, rest⟩
  · have := length_sortLex ((vals.filterMap id).dedup)
    rw [hc] at this
    exact absurd (List.eq_nil_of_length_eq_zero this.symm) hLne
  · have hcols : (get_dummies_dropFirst vals).cols = rest := by
      show (sortLex ((vals.filterMap id).dedup)).drop 1 = rest
      rw [hc]
      rfl
    have hpw : (d :: rest).Pairwise (fun a b => lexLe a b = true) := by
      rw [← hc]
      exact pairwise_sortLex _
    have hnd : (d :: rest).Nodup := by
      rw [← hc]
      exact nodup_sortLex _ (List.nodup_dedup _)
    have hmem : ∀ y : List Char, y ∈ d :: rest ↔ some y ∈ vals := by
      intro y
      rw [← hc, mem_sortLex, List.mem_dedup, mem_filterMap_id]
    obtain ⟨hdni, hndr⟩ := List.nodup_cons.mp hnd
    obtain ⟨hdle, _⟩ := List.pairwise_cons.mp hpw
    refine ⟨d, (hmem d).mp (List.mem_cons_self d rest), ?_, ?_, ?_, ?_, rfl, rfl⟩
    · rw [hcols]
      exact hdni
    · intro c hcv
      rcases List.mem_cons.mp ((hmem c).mpr hcv) with rfl | hcr
      · exact lexLe_refl c
      · exact hdle c hcr
    · intro c
      rw [hcols]
      constructor
      · intro hcr
        refine ⟨(hmem c).mp (List.mem_cons_of_mem d hcr), ?_⟩
        intro e
        subst e
        exact hdni hcr
      · rintro ⟨hcv, hcd⟩
        rcases List.mem_cons.mp ((hmem c).mpr hcv) with rfl | hcr
        · exact absurd rfl hcd
        · exact hcr
    · rw [hcols]
      have := length_sortLex ((vals.filterMap id).dedup)
      rw [hc] at this
      rw [← this]
      rfl

/-- Witness for C9 on a two-category column with one missing cell. -/
theorem C9_categorical_encoder_witness :
    (([some "b".data, none, some "a".data, some "b".data] :
        List (Option (List Char))).filterMap id ≠ []) ∧
    ∃ d : List Char,
      some d ∈ [some "b".data, none, some "a".data, some "b".data] ∧
      d ∉ (get_dummies_dropFirst
        [some "b".data, none, some "a".data, some "b".data]).cols ∧
      (∀ c : List Char,
        some c ∈ [some "b".data, none, some "a".data, some "b".data] →
          lexLe d c = true) ∧
      (∀ c : List Char,
        c ∈ (get_dummies_dropFirst
          [some "b".data, none, some "a".data, some "b".data]).cols ↔
          (some c ∈ [some "b".data, none, some "a".data, some "b".data] ∧ c ≠ d)) ∧
      (get_dummies_dropFirst
        [some "b".data, none, some "a".data, some "b".data]).cols.length + 1 =
        (([some "b".data, none, some "a".data, some "b".data] :
          List (Option (List Char))).filterMap id).dedup.length ∧
      (get_dummies_dropFirst [some "b".data, none, some "a".data, some "b".data]).rows =
        [some "b".data, none, some "a".data, some "b".data].map (fun v =>
          (get_dummies_dropFirst
            [some "b".data, none, some "a".data, some "b".data]).cols.map
              (fun c => decide (v = some c))) ∧
      get_dummies_dropFirst [some "b".data, none, some "a".data, some "b".data] =
        get_dummies_dropFirst [some "b".data, none, some "a".data, some "b".data] :=
  ⟨by decide,
    C9_categorical_encoder [some "b".data, none, some "a".data, some "b".data]
      (by decide)⟩

end SmartRent
